import Mathlib

/-!
Verification of the content-addressed deduplication and font-synthesis
pipeline (repository `abd`).  The Python sources are shallowly embedded:
pure fragments become Lean functions, Python exceptions become an explicit
`PyResult`, Python dictionaries become association lists in insertion order,
and the two regular expressions of the sources are embedded as deterministic
matchers specialised to their patterns.  Numeric literals are modelled in
exact decimal arithmetic (the sources route them through double-precision
floats; every concrete input used below is exactly representable, so the
model and the floats agree there).
-/

namespace Abd

/-- Result of running a piece of Python code: either a value or a raised
exception (`.exn` stands for any uncaught Python exception). -/
inductive PyResult (α : Type) : Type
  | ok : α → PyResult α
  | exn : PyResult α
deriving DecidableEq

/-- Instance synthesis sometimes misses this product; supply it directly. -/
instance : DecidableEq (List (Nat × Int × Int) × List (String × List (Option (Int × Int)))) :=
  fun a b => instDecidableEqProd a b

/-- ASCII decimal digit test, the model of the regex class `\d` on the
ASCII strings this pipeline feeds through its regular expressions. -/
def isDigitC (c : Char) : Bool :=
  '0' ≤ c && c ≤ '9'

/-- ASCII whitespace, the model of the regex class `\s` and of the default
character set of Python's `str.rstrip` on the ASCII strings used here. -/
def isSpaceC (c : Char) : Bool :=
  c = ' ' || c = '\t' || c = '\n' || c = '\r' || c = '\x0b' || c = '\x0c'

/-- Numeric value of an ASCII digit character. -/
def digitVal (c : Char) : Nat :=
  c.toNat - 48

/-- ASCII digit character of a value below 10. -/
def digitChar (n : Nat) : Char :=
  Char.ofNat (n + 48)

/-- Value of a big-endian list of ASCII digit characters. -/
def natOfDigits (ds : List Char) : Nat :=
  ds.foldl (fun a c => 10 * a + digitVal c) 0

/-- Model of `str.rstrip()`: drop trailing whitespace characters. -/
def rstrip (s : String) : String :=
  ⟨(s.data.reverse.dropWhile isSpaceC).reverse⟩

/-- Lookup in an association list, the model of Python's `dict.get` (keys of
the dictionaries modelled here are unique). -/
def alookup {α : Type} : List (String × α) → String → Option α
  | [], _ => none
  | (k, v) :: rest, key => if k = key then some v else alookup rest key

/-! ## PageReconstructor: `svg2pdf2.render_text`

`render_text` walks the page's text run.  The first entry is drawn with
`setTextOrigin(x, height - y)`; every later entry is drawn after
`moveCursor(x - px, y - py)`.  reportlab's `moveCursor(dx, dy)` moves the
pen `dx` to the right and `dy` DOWN the page, i.e. the canvas-space motion
is `(dx, -dy)`.  The embedding returns the list of
`(code_point, canvasX, canvasY)` triples at which glyphs are drawn. -/

/-- Tail of the `render_text` loop: `(px, py)` is the previous text-run
entry, `(cx, cy)` the canvas position of the previously drawn glyph. -/
def render_text_aux (px py cx cy : Int) : List (Nat × Int × Int) → List (Nat × Int × Int)
  | [] => []
  | (c, x, y) :: rest =>
      let nx := cx + (x - px)
      let ny := cy - (y - py)
      (c, nx, ny) :: render_text_aux x y nx ny rest

/-- Embedding of `svg2pdf2.render_text`: glyph draw positions produced for a
text run `font_uses` on a page of the given height. -/
def render_text (height : Int) (font_uses : List (Nat × Int × Int)) : List (Nat × Int × Int) :=
  match font_uses with
  | [] => []
  | (c0, x0, y0) :: rest =>
      (c0, x0, height - y0) :: render_text_aux x0 y0 x0 (height - y0) rest

/-! ## GlyphSelector: the threshold step of `make_font.find_glyphs_and_create_font`

`to_ttf = set([k for (k, v) in count.md5_count.items() if v >= limit])`. -/

/-- Embedding of the selection comprehension: all digests of the counter
whose count is at least `limit`, in counter order. -/
def select (counter : List (String × Nat)) (limit : Nat) : List String :=
  (counter.filter (fun kv => limit ≤ kv.2)).map Prod.fst

/-! ## PageRewriter: `deduplicate2.py`

`deduplicate_svg` walks one page's path elements.  For each element it takes
the path data `d` (raising `AttributeError` when the attribute is missing),
extracts the translate coordinates from the `transform` attribute with the
regex `translate\(([-+]?\d*\.?\d+),\s*([-+]?\d*\.?\d+)\)` and Python `int`,
and either appends a text-run entry (digest found in the font metadata) or
files the shape into the page-local path dictionary. -/

/-- Greedy match of `\d*\.?\d+` after an already-consumed sign: `ds1` is
the maximal leading digit run; the decimal point is taken only when at
least one digit follows it (otherwise the regex engine backtracks to the
dotless alternative, which needs at least one digit in `ds1`). -/
def matchNumCore (sign cs1 : List Char) : Option (List Char × List Char) :=
  match cs1.dropWhile isDigitC with
  | '.' :: cs3 =>
      if cs3.takeWhile isDigitC = [] then
        if cs1.takeWhile isDigitC = [] then none
        else some (sign ++ cs1.takeWhile isDigitC, cs1.dropWhile isDigitC)
      else some (sign ++ cs1.takeWhile isDigitC ++ '.' :: cs3.takeWhile isDigitC,
        cs3.dropWhile isDigitC)
  | _ =>
      if cs1.takeWhile isDigitC = [] then none
      else some (sign ++ cs1.takeWhile isDigitC, cs1.dropWhile isDigitC)

/-- Greedy match of the regex fragment `[-+]?\d*\.?\d+` at the start of
`cs`: the matched group and the remaining input. -/
def matchNumArg : List Char → Option (List Char × List Char)
  | [] => none
  | c :: rest =>
      if c = '-' then matchNumCore ['-'] rest
      else if c = '+' then matchNumCore ['+'] rest
      else matchNumCore [] (c :: rest)

/-- Tail of the translate pattern after the literal `translate(`: first
group, comma, optional whitespace, second group, closing parenthesis. -/
def matchAfterParen (cs1 : List Char) : Option (List Char × List Char) :=
  match matchNumArg cs1 with
  | none => none
  | some (g1, cs2) =>
      match cs2 with
      | ',' :: cs3 =>
          match matchNumArg (cs3.dropWhile isSpaceC) with
          | none => none
          | some (g2, cs4) =>
              match cs4 with
              | ')' :: _ => some (g1, g2)
              | _ => none
      | _ => none

/-- The literal characters `translate(` of the pattern. -/
def translateLit : List Char := ['t', 'r', 'a', 'n', 's', 'l', 'a', 't', 'e', '(']

/-- Match of the whole pattern `translate\(G,\s*G\)` anchored at the start
of `cs`; returns the two argument groups on success. -/
def matchTranslateAt (cs : List Char) : Option (List Char × List Char) :=
  if cs.take 10 = translateLit then matchAfterParen (cs.drop 10) else none

/-- Model of `re.search` for the translate pattern: try the pattern at each
start position, left to right. -/
def searchTranslate : List Char → Option (List Char × List Char)
  | [] => none
  | c :: rest =>
      match matchTranslateAt (c :: rest) with
      | some g => some g
      | none => searchTranslate rest

/-- Value of a non-empty all-digit character list, `none` otherwise. -/
def digitsValue (cs : List Char) : Option Nat :=
  if cs ≠ [] ∧ cs.all isDigitC then some (natOfDigits cs) else none

/-- Model of Python's `int(str)` on the matcher's groups: an optional sign
followed by one or more digits converts; anything else — in particular a
string containing a decimal point — raises `ValueError` (here: `none`). -/
def pyInt : List Char → Option Int
  | [] => none
  | c :: rest =>
      if c = '-' then
        match digitsValue rest with
        | none => none
        | some n => some (-(n : Int))
      else if c = '+' then
        match digitsValue rest with
        | none => none
        | some n => some ((n : Int))
      else
        match digitsValue (c :: rest) with
        | none => none
        | some n => some ((n : Int))

/-- Embedding of `deduplicate2.extract_translate_coordinates` lifted over
the optional `transform` attribute: a missing attribute makes `re.search`
raise `TypeError`; no match returns `None`; a match converts both groups
with `int`, which raises on a non-integer group. -/
def extract_translate_coordinates (transform : Option String) : PyResult (Option (Int × Int)) :=
  match transform with
  | none => .exn
  | some s =>
      match searchTranslate s.data with
      | none => .ok none
      | some (g1, g2) =>
          match pyInt g1 with
          | none => .exn
          | some x =>
              match pyInt g2 with
              | none => .exn
              | some y => .ok (some (x, y))

/-- One `<path>` element of a traced page: its path data attribute `d` and
its `transform` attribute, each possibly missing. -/
structure PathElem where
  d : Option String
  transform : Option String
deriving DecidableEq

/-- Append a further placement to the entry of path data `d` in the
page-local dictionary (Python `path_dict[d].append(t)`). -/
def dictAppend : List (String × List (Option (Int × Int))) → String → Option (Int × Int) →
    List (String × List (Option (Int × Int)))
  | [], _, _ => []
  | (k, ts) :: rest, d, t =>
      if k = d then (k, ts ++ [t]) :: rest else (k, ts) :: dictAppend rest d t

/-- The loop body of `deduplicate2.deduplicate_svg` over the page's path
elements, carrying the accumulated text run and path dictionary. -/
def processElems (hash : String → String) (font_meta : List (String × Nat)) :
    List PathElem → List (Nat × Int × Int) → List (String × List (Option (Int × Int))) →
    PyResult (List (Nat × Int × Int) × List (String × List (Option (Int × Int))))
  | [], font_uses, path_dict => .ok (font_uses, path_dict)
  | e :: rest, font_uses, path_dict =>
      match e.d with
      | none => .exn
      | some d0 =>
          let d := rstrip d0
          match extract_translate_coordinates e.transform with
          | .exn => .exn
          | .ok t =>
              match alookup font_meta (hash d) with
              | some cp =>
                  match t with
                  | none => .exn
                  | some txy =>
                      processElems hash font_meta rest (font_uses ++ [(cp, txy.1, txy.2)]) path_dict
              | none =>
                  if (path_dict.map Prod.fst).contains d then
                    processElems hash font_meta rest font_uses (dictAppend path_dict d t)
                  else
                    processElems hash font_meta rest font_uses (path_dict ++ [(d, [t])])

/-- Embedding of `deduplicate2.deduplicate_svg` on one parsed page: the text
run and the page-local path dictionary (from which the residual graphic is
built: one inlined path per single-use entry, one def plus uses per
multi-use entry), or an uncaught exception. -/
def deduplicate_svg (hash : String → String) (font_meta : List (String × Nat))
    (page : List PathElem) :
    PyResult (List (Nat × Int × Int) × List (String × List (Option (Int × Int)))) :=
  processElems hash font_meta page [] []

/-- Embedding of the batch loop of `deduplicate2.deduplicate`: every page is
rewritten inside its own try/except, so pages fail independently. -/
def deduplicate_batch (hash : String → String) (font_meta : List (String × Nat))
    (pages : List (List PathElem)) :
    List (PyResult (List (Nat × Int × Int) × List (String × List (Option (Int × Int))))) :=
  pages.map (deduplicate_svg hash font_meta)

/-- A page element whose digest is promoted: its path data is present, its
transform carries translate coordinates that convert as integers, and its
digest is in the font metadata. -/
def IsPromoted (hash : String → String) (font_meta : List (String × Nat)) (e : PathElem) : Prop :=
  ∃ d0 tx ty cp, e.d = some d0
    ∧ extract_translate_coordinates e.transform = .ok (some (tx, ty))
    ∧ alookup font_meta (hash (rstrip d0)) = some cp

/-- The text-run entry `u` is the one the rewriter produces for the page
element `e`: its digest's codepoint paired with the element's offset. -/
def DescribesUse (hash : String → String) (font_meta : List (String × Nat))
    (e : PathElem) (u : Nat × Int × Int) : Prop :=
  ∃ d0, e.d = some d0
    ∧ extract_translate_coordinates e.transform = .ok (some (u.2.1, u.2.2))
    ∧ alookup font_meta (hash (rstrip d0)) = some u.1

/-- Shape of a matched translate argument group: an optional sign, then
digits, then optionally a decimal point followed by at least one digit;
at least one digit in total. -/
def GroupShape (g : List Char) : Prop :=
  ∃ sign ds1 ds2, (sign = ([] : List Char) ∨ sign = ['-'] ∨ sign = ['+'])
    ∧ ds1.all isDigitC ∧ ds2.all isDigitC
    ∧ ((g = sign ++ ds1 ∧ ds1 ≠ []) ∨ (g = sign ++ ds1 ++ '.' :: ds2 ∧ ds2 ≠ []))

/-! ## RepresentativeFinder: `make_font.find_glyphs`

The finder scans the traced pages (sorted by filename) for the first
occurrence of each wanted digest.  A shape whose `d` attribute is missing
is skipped (`if d is not None`); the page loop breaks early once the
pending set is empty. -/

/-- The per-page loop of `make_font.find_glyphs`: a shape with no path data
is skipped; a shape whose digest is still wanted is recorded and its digest
removed from the pending set. -/
def pageScan (hash : String → String) : List (Option String) → List String → List String →
    List String × List String
  | [], res, w => (res, w)
  | none :: rest, res, w => pageScan hash rest res w
  | some d :: rest, res, w =>
      let d1 := rstrip d
      if hash d1 ∈ w then pageScan hash rest (res ++ [d1]) (w.erase (hash d1))
      else pageScan hash rest res w

/-- The page loop of `make_font.find_glyphs` with its early break: scanning
stops once the pending set is empty. -/
def findGlyphsCore (hash : String → String) :
    List (List (Option String)) → List String → List String → List String × List String
  | [], res, w => (res, w)
  | p :: ps, res, w =>
      let rw := pageScan hash p res w
      if rw.2 = [] then rw else findGlyphsCore hash ps rw.1 rw.2

/-- Embedding of `make_font.find_glyphs`: the representatives recorded for
the wanted digests over pages scanned in filename-lexicographic order. -/
def find_glyphs (hash : String → String) (pages : List (List (Option String)))
    (wanted : List String) : List String :=
  (findGlyphsCore hash pages [] wanted).1

/-- The present path-data strings of a scanned corpus in scan order (pages
in lexicographic order, shapes in document order), rstripped as the scanner
does. -/
def corpusOccs (pages : List (List (Option String))) : List String :=
  pages.flatten.filterMap (fun o => o.map rstrip)

/-- Straight-line scan over a list of occurrence strings; `pageScan` and
`findGlyphsCore` reduce to it. -/
def linScan (hash : String → String) : List String → List String → List String →
    List String × List String
  | [], res, w => (res, w)
  | d :: ds, res, w =>
      if hash d ∈ w then linScan hash ds (res ++ [d]) (w.erase (hash d))
      else linScan hash ds res w

/-! ## FontAssembler: `make_font.py`

`create_font_from_memory_svgs` walks the representatives in order.  It
computes each path's bounding box with `svgelements` (skipping paths with
none), rejects oversized paths with `is_within_range`, writes the accepted
path into a glyph SVG whose `viewBox` is formatted as
`"{xmin} {ymin} {xmin + 100} {ymin + 100}"`, records
`digest ↦ {code_point, bbox}`, and advances the codepoint with a
`while not is_printable(code_point)` loop starting from `ord(' ') + 1`. -/

/-- One drawing command of a path, with absolute page coordinates (polygon
tracing emits move/line/close; spline tracing adds cubic curves). -/
inductive PathCmd : Type
  | move : Int × Int → PathCmd
  | line : Int × Int → PathCmd
  | curve : Int × Int → Int × Int → Int × Int → PathCmd
  | close : PathCmd
deriving DecidableEq

/-- A parsed path: the model of one shape's drawing-command sequence. -/
abbrev PathData := List PathCmd

/-- The coordinate pairs appearing in one command. -/
def cmdPoints : PathCmd → List (Int × Int)
  | .move p => [p]
  | .line p => [p]
  | .curve p1 p2 p3 => [p1, p2, p3]
  | .close => []

/-- All coordinate pairs of a path, the point set the bounding box is taken
over. -/
def pathPoints (d : PathData) : List (Int × Int) :=
  (d.map cmdPoints).flatten

/-- A bounding box `(xmin, ymin, xmax, ymax)` as `svgelements` returns it. -/
structure Box where
  xmin : Int
  ymin : Int
  xmax : Int
  ymax : Int
deriving DecidableEq

/-- Model of `svgelements.Path(d).bbox()`: `None` for a path with no
coordinates, otherwise the componentwise extrema of its points. -/
def bboxP (d : PathData) : Option Box :=
  match pathPoints d with
  | [] => none
  | p :: ps =>
      some ⟨(ps.map Prod.fst).foldl min p.1, (ps.map Prod.snd).foldl min p.2,
            (ps.map Prod.fst).foldl max p.1, (ps.map Prod.snd).foldl max p.2⟩

/-- Embedding of `make_font.is_within_range`: both bounding-box dimensions
are at most 100 design units. -/
def is_within_range (b : Box) : Bool :=
  b.xmax - b.xmin ≤ 100 && b.ymax - b.ymin ≤ 100

/-- The SVG file `make_font.make_svg` writes for one glyph: the four
numbers of its `viewBox` attribute exactly as the source formats them
(`xmin ymin xmin+100 ymin+100`) and the path data `d`, emitted unchanged. -/
structure GlyphSVG where
  vb1 : Int
  vb2 : Int
  vb3 : Int
  vb4 : Int
  path : PathData
deriving DecidableEq

/-- Embedding of `make_font.make_svg` on a path with bounding box `b`. -/
def make_svg (d : PathData) (b : Box) : GlyphSVG :=
  ⟨b.xmin, b.ymin, b.xmin + 100, b.ymin + 100, d⟩

/-- Translation of one command by a vector. -/
def translateCmd (v : Int × Int) : PathCmd → PathCmd
  | .move p => .move (p.1 + v.1, p.2 + v.2)
  | .line p => .line (p.1 + v.1, p.2 + v.2)
  | .curve p1 p2 p3 =>
      .curve (p1.1 + v.1, p1.2 + v.2) (p2.1 + v.1, p2.2 + v.2) (p3.1 + v.1, p3.2 + v.2)
  | .close => .close

/-- Translation of a whole path by a vector. -/
def translatePath (v : Int × Int) (d : PathData) : PathData :=
  d.map (translateCmd v)

/-- The glyph cell an SVG consumer sees in the emitted file: per the SVG
specification the third and fourth `viewBox` entries are the width and the
height of the cell, and the cell's content is the path re-expressed
relative to the `viewBox` origin `(vb1, vb2)`. -/
def glyphCell (g : GlyphSVG) : Int × Int × PathData :=
  (g.vb3, g.vb4, translatePath (-g.vb1, -g.vb2) g.path)

/-- Embedding of `make_font.is_printable` relative to a category function
`cat` modelling `n ↦ unicodedata.category(chr(n))[0]`: the category's first
letter is Letter, Number, Punctuation or Symbol. -/
def is_printable (cat : Nat → Char) (n : Nat) : Bool :=
  cat n = 'L' || cat n = 'N' || cat n = 'P' || cat n = 'S'

/-- A category function together with a bound within which a printable
codepoint always exists above any point (true of Unicode; without it the
source's `while not is_printable` loop would not terminate). -/
structure CatFun where
  cat : Nat → Char
  bound : Nat → Nat
  bound_printable : ∀ n, ∃ m, n < m ∧ m ≤ bound n ∧ is_printable cat m = true

/-- The `while not is_printable: code_point += 1` loop body: advance from
`m`, trying at most `fuel` positions. -/
def searchPrintable (cat : Nat → Char) : Nat → Nat → Nat
  | 0, m => m
  | fuel + 1, m => if is_printable cat m then m else searchPrintable cat fuel (m + 1)

/-- The codepoint the assignment advances to after consuming `n`: `n + 1`,
then while not printable, increment. -/
def nextPrintable (C : CatFun) (n : Nat) : Nat :=
  searchPrintable C.cat (C.bound n - n) (n + 1)

/-- One glyph record of the emitted FontMeta. -/
structure GlyphInfo where
  code_point : Nat
  bbox : Box
deriving DecidableEq

/-- The glyph loop of `make_font.create_font_from_memory_svgs`: a path with
no bounding box is reported and skipped; an oversized path is reported and
skipped; an accepted path gets the current codepoint and a FontMeta entry,
after which the codepoint advances to the next printable one. -/
def buildFont (hash : PathData → String) (C : CatFun) :
    List PathData → Nat → List (String × GlyphInfo)
  | [], _ => []
  | d :: rest, cp =>
      match bboxP d with
      | none => buildFont hash C rest cp
      | some b =>
          if is_within_range b then
            (hash d, ⟨cp, b⟩) :: buildFont hash C rest (nextPrintable C cp)
          else buildFont hash C rest cp

/-- Embedding of `make_font.create_font_from_memory_svgs`: the FontMeta
built from the representatives, codepoints starting one above the ASCII
space character (`ord(' ') + 1 = 33`). -/
def create_font_from_memory_svgs (hash : PathData → String) (C : CatFun)
    (glyphs : List PathData) : List (String × GlyphInfo) :=
  buildFont hash C glyphs (32 + 1)

/-- A glyph the assembler accepts: it has a bounding box and fits in the
100-unit cell. -/
def acceptedB (d : PathData) : Bool :=
  match bboxP d with
  | none => false
  | some b => is_within_range b

/-- A concrete category function for witnesses: every codepoint a Letter. -/
def allLetters : CatFun :=
  ⟨fun _ => 'L', fun n => n + 1,
    fun n => ⟨n + 1, Nat.lt_succ_self n, Nat.le_refl _, by simp [is_printable]⟩⟩

/-! ## Canonicalizer: `png2svg.round_svg_numbers`

`re.sub(r"([MC ])([-+]?\d*\.\d+)", round_match, svg_str)` scans the string
left to right for a move/curve command letter or space followed by a
decimal literal, and replaces each match by the same first group and the
literal parsed with `float`, rounded with `round(·, 2)` and reformatted
with `"{:.2f}".format(·).rstrip('0').rstrip('.')`.  The numeric pipeline is
modelled in exact decimal arithmetic with round-half-to-even; on all values
used below the double-precision pipeline of the source computes the same
digits. -/

/-- Split an all-consumed literal body into integer digits and fraction
digits: either all digits (no dot), or digits, a dot, and at least one
fraction digit. -/
def parseDigitsDot (cs : List Char) : Option (List Char × List Char) :=
  match cs.dropWhile isDigitC with
  | [] => if cs.takeWhile isDigitC = [] then none else some (cs.takeWhile isDigitC, [])
  | '.' :: rest =>
      if rest ≠ [] ∧ rest.all isDigitC then some (cs.takeWhile isDigitC, rest) else none
  | _ => none

/-- Model of `float(...)` on a number literal: sign flag, integer digits,
fraction digits; `none` when the literal does not parse. -/
def parseLit : List Char → Option (Bool × List Char × List Char)
  | [] => none
  | c :: rest =>
      if c = '-' then
        match parseDigitsDot rest with
        | none => none
        | some p => some (true, p.1, p.2)
      else if c = '+' then
        match parseDigitsDot rest with
        | none => none
        | some p => some (false, p.1, p.2)
      else
        match parseDigitsDot (c :: rest) with
        | none => none
        | some p => some (false, p.1, p.2)

/-- The magnitude of the literal with integer digits `ds1` and fraction
digits `ds2`, scaled to hundredths and rounded half-to-even: the model of
`round(·, 2)` on the parsed value. -/
def scaled2 (ds1 ds2 : List Char) : Nat :=
  if ds2.length ≤ 2 then natOfDigits (ds1 ++ ds2) * 10 ^ (2 - ds2.length)
  else
    let n := natOfDigits (ds1 ++ ds2)
    let dv := 10 ^ (ds2.length - 2)
    if 2 * (n % dv) < dv then n / dv
    else if dv < 2 * (n % dv) then n / dv + 1
    else if n / dv % 2 = 0 then n / dv else n / dv + 1

/-- Big-endian decimal digits of `n`, with division fuel. -/
def natToDigitsAux : Nat → Nat → List Char
  | 0, _ => []
  | fuel + 1, n =>
      if n < 10 then [digitChar n] else natToDigitsAux fuel (n / 10) ++ [digitChar (n % 10)]

/-- Big-endian decimal digits of `n`. -/
def natToDigits (n : Nat) : List Char :=
  natToDigitsAux (n + 1) n

/-- Model of Python `str.rstrip(c)` for a single character on a character
list: drop every trailing occurrence of `c`. -/
def rstripChar (c : Char) (cs : List Char) : List Char :=
  (cs.reverse.dropWhile (fun x => x == c)).reverse

/-- Model of `"{:.2f}".format(v).rstrip('0').rstrip('.')` for the value of
sign `neg` and hundredths magnitude `s`: print the integer part, a dot and
exactly two fraction digits, then strip trailing zeros and a trailing
dot (the sign is kept as Python keeps it, even for a zero magnitude). -/
def formatStripped (neg : Bool) (s : Nat) : List Char :=
  let stripped := rstripChar '.' (rstripChar '0'
    (natToDigits (s / 100) ++ '.' :: [digitChar (s / 10 % 10), digitChar (s % 10)]))
  if neg then '-' :: stripped else stripped

/-- The replacement computed for one matched number literal: parse, round
to two decimal places, format, strip. -/
def roundLiteral (cs : List Char) : Option (List Char) :=
  match parseLit cs with
  | none => none
  | some t => some (formatStripped t.1 (scaled2 t.2.1 t.2.2))

/-- Greedy match of `\d*\.\d+` (decimal point required) after an
already-consumed sign: maximal digit run, the dot, and at least one
fraction digit. -/
def matchRoundCore (sign cs1 : List Char) : Option (List Char × List Char) :=
  match cs1.dropWhile isDigitC with
  | '.' :: cs3 =>
      if cs3.takeWhile isDigitC = [] then none
      else some (sign ++ cs1.takeWhile isDigitC ++ '.' :: cs3.takeWhile isDigitC,
        cs3.dropWhile isDigitC)
  | _ => none

/-- Greedy match of the second group `[-+]?\d*\.\d+` at the start of the
input. -/
def matchRoundNum : List Char → Option (List Char × List Char)
  | [] => none
  | c :: rest =>
      if c = '-' then matchRoundCore ['-'] rest
      else if c = '+' then matchRoundCore ['+'] rest
      else matchRoundCore [] (c :: rest)

/-- One match attempt of `([MC ])([-+]?\d*\.\d+)` at the head of `cs`: on
success, the full replacement text (first group unchanged, second group
rounded) and the remaining input.  A matched second group always parses,
so the `none` fallback of `roundLiteral` is unreachable. -/
def matchRoundAt : List Char → Option (List Char × List Char)
  | [] => none
  | c :: rest =>
      if c = 'M' || c = 'C' || c = ' ' then
        match matchRoundNum rest with
        | none => none
        | some p =>
            match roundLiteral p.1 with
            | none => none
            | some rep => some (c :: rep, p.2)
      else none

/-- The `re.sub` scan: try the pattern at each position, left to right and
non-overlapping; `fuel` bounds the recursion (every step consumes at least
one character, so the input length suffices). -/
def subAllF (fuel : Nat) (cs : List Char) : List Char :=
  match fuel with
  | 0 => cs
  | fuel + 1 =>
      match cs with
      | [] => []
      | c :: rest =>
          match matchRoundAt (c :: rest) with
          | some p => p.1 ++ subAllF fuel p.2
          | none => c :: subAllF fuel rest

/-- Embedding of `png2svg.round_svg_numbers`, the number-rounding
normalization of the canonicalizer. -/
def round_svg_numbers (s : String) : String :=
  ⟨subAllF s.data.length s.data⟩

/-! ## Theorems -/

/-- Auxiliary: once the cursor sits at the flipped position of the previous
entry, every later glyph is drawn at its own flipped position. -/
theorem render_text_aux_map (height : Int) :
    ∀ (rest : List (Nat × Int × Int)) (px py : Int),
      render_text_aux px py px (height - py) rest
        = rest.map (fun t => (t.1, t.2.1, height - t.2.2)) := by
  intro rest
  induction rest with
  | nil => intro px py; rfl
  | cons hd tl ih =>
      intro px py
      obtain ⟨c, x, y⟩ := hd
      simp only [render_text_aux, List.map_cons]
      have hx : px + (x - px) = x := by omega
      have hy : height - py - (y - py) = height - y := by omega
      rw [hx, hy, ih x y]

/-- C1: the reconstructor places the first glyph of a non-empty text run at
`(x₀, H - y₀)`, and for each later entry moves the drawing position by the
page-space delta `(xᵢ - xᵢ₋₁)` horizontally and the flipped delta
`-(yᵢ - yᵢ₋₁)` vertically before drawing, so every glyph `i` lands at
`(xᵢ, H - yᵢ)`; in particular the run `[[65,10,20],[66,15,25]]` with
`H = 100` draws at `(10,80)` and `(15,75)`. -/
theorem render_text_protocol :
    (∀ (height : Int) (run : List (Nat × Int × Int)),
        render_text height run = run.map (fun t => (t.1, t.2.1, height - t.2.2)))
    ∧ (∀ (height x0 y0 : Int) (c0 : Nat) (rest : List (Nat × Int × Int)),
        (render_text height ((c0, x0, y0) :: rest)).head? = some (c0, x0, height - y0))
    ∧ (∀ (height : Int) (run : List (Nat × Int × Int)) (i : Nat) (a b : Nat × Int × Int),
        run.get? i = some a → run.get? (i + 1) = some b →
        ∃ p q, (render_text height run).get? i = some p
          ∧ (render_text height run).get? (i + 1) = some q
          ∧ q.2.1 = p.2.1 + (b.2.1 - a.2.1)
          ∧ q.2.2 = p.2.2 - (b.2.2 - a.2.2))
    ∧ render_text 100 [(65, 10, 20), (66, 15, 25)] = [(65, 10, 80), (66, 15, 75)] := by
  have hmap : ∀ (height : Int) (run : List (Nat × Int × Int)),
      render_text height run = run.map (fun t => (t.1, t.2.1, height - t.2.2)) := by
    intro height run
    match run with
    | [] => rfl
    | (c0, x0, y0) :: rest =>
        show (c0, x0, height - y0) :: render_text_aux x0 y0 x0 (height - y0) rest = _
        rw [render_text_aux_map height rest x0 y0, List.map_cons]
  refine ⟨hmap, ?_, ?_, ?_⟩
  · intro height x0 y0 c0 rest
    rfl
  · intro height run i a b ha hb
    refine ⟨(a.1, a.2.1, height - a.2.2), (b.1, b.2.1, height - b.2.2), ?_, ?_, ?_, ?_⟩
    · rw [hmap, List.get?_map, ha]; rfl
    · rw [hmap, List.get?_map, hb]; rfl
    · simp only []; omega
    · simp only []; omega
  · decide

/-- Witness for C1 at the concrete run of the claim: the two consecutive
entries `(65,10,20)` and `(66,15,25)` are drawn `(5, -5)` apart. -/
theorem render_text_protocol_witness :
    ∃ p q, (render_text 100 [(65, 10, 20), (66, 15, 25)]).get? 0 = some p
      ∧ (render_text 100 [(65, 10, 20), (66, 15, 25)]).get? 1 = some q
      ∧ q.2.1 = p.2.1 + ((15 : Int) - 10) ∧ q.2.2 = p.2.2 - ((25 : Int) - 20) :=
  render_text_protocol.2.2.1 100 [(65, 10, 20), (66, 15, 25)] 0 (65, 10, 20) (66, 15, 25)
    (by decide) (by decide)

/-- C5, membership: `select` returns exactly the digests whose count meets
the threshold, and it is antitone in the threshold. -/
theorem select_threshold_antitone (counter : List (String × Nat)) :
    (∀ k limit, k ∈ select counter limit ↔ ∃ v, (k, v) ∈ counter ∧ limit ≤ v)
    ∧ (∀ t1 t2, t1 ≤ t2 → ∀ k, k ∈ select counter t2 → k ∈ select counter t1) := by
  have hmem : ∀ k limit, k ∈ select counter limit ↔ ∃ v, (k, v) ∈ counter ∧ limit ≤ v := by
    intro k limit
    constructor
    · intro hk
      simp only [select, List.mem_map, List.mem_filter] at hk
      obtain ⟨⟨k', v⟩, ⟨hin, hle⟩, hfst⟩ := hk
      have hk' : k' = k := hfst
      rw [hk'] at hin
      exact ⟨v, hin, by simpa using hle⟩
    · rintro ⟨v, hin, hle⟩
      simp only [select, List.mem_map, List.mem_filter]
      exact ⟨(k, v), ⟨hin, by simpa using hle⟩, rfl⟩
  refine ⟨hmem, ?_⟩
  intro t1 t2 h12 k hk
  obtain ⟨v, hin, hle⟩ := (hmem k t2).mp hk
  exact (hmem k t1).mpr ⟨v, hin, Nat.le_trans h12 hle⟩

/-- Witness for C5 at the concrete counter of the spec: with counts
`{h1 ↦ 150, h2 ↦ 50}`, threshold 100 selects exactly `h1`, and everything
selected at 100 is selected at 50. -/
theorem select_threshold_antitone_witness :
    select [("h1", 150), ("h2", 50)] 100 = ["h1"]
    ∧ ("h1" ∈ select [("h1", 150), ("h2", 50)] 100
        → "h1" ∈ select [("h1", 150), ("h2", 50)] 50) :=
  ⟨by decide, fun h =>
    (select_threshold_antitone [("h1", 150), ("h2", 50)]).2 50 100 (by decide) "h1" h⟩

/-- Helper: the rewriter loop raises as soon as it reaches an element whose
path data is missing or whose transform extraction raises, regardless of
what precedes or follows it on the page. -/
theorem processElems_exn_of_bad (hash : String → String) (font_meta : List (String × Nat))
    (e : PathElem)
    (hbad : e.d = none ∨ extract_translate_coordinates e.transform = .exn) :
    ∀ (pre post : List PathElem) (acc : List (Nat × Int × Int))
      (dict : List (String × List (Option (Int × Int)))),
      processElems hash font_meta (pre ++ e :: post) acc dict = .exn := by
  intro pre
  induction pre with
  | nil =>
      intro post acc dict
      rcases hbad with h | h
      · simp only [List.nil_append, processElems, h]
      · cases hd : e.d with
        | none => simp only [List.nil_append, processElems, hd]
        | some d0 => simp only [List.nil_append, processElems, hd, h]
  | cons f pre ih =>
      intro post acc dict
      cases hd : f.d with
      | none => simp only [List.cons_append, processElems, hd]
      | some d0 =>
          cases hex : extract_translate_coordinates f.transform with
          | exn => simp only [List.cons_append, processElems, hd, hex]
          | ok t =>
              cases hl : alookup font_meta (hash (rstrip d0)) with
              | some cp =>
                  cases t with
                  | none => simp only [List.cons_append, processElems, hd, hex, hl]
                  | some txy =>
                      simp only [List.cons_append, processElems, hd, hex, hl]
                      exact ih post _ _
              | none =>
                  simp only [List.cons_append, processElems, hd, hex, hl]
                  split
                  · exact ih post _ _
                  · exact ih post _ _

/-- Helper: a page whose elements are all promoted is rewritten without
error into a text run matching the page element-by-element, leaving the
path dictionary untouched. -/
theorem processElems_all_promoted (hash : String → String) (font_meta : List (String × Nat)) :
    ∀ (page : List PathElem) (acc : List (Nat × Int × Int)),
      (∀ e ∈ page, IsPromoted hash font_meta e) →
      ∃ uses, processElems hash font_meta page acc [] = .ok (acc ++ uses, [])
        ∧ List.Forall₂ (DescribesUse hash font_meta) page uses := by
  intro page
  induction page with
  | nil =>
      intro acc _
      exact ⟨[], by simp [processElems], List.Forall₂.nil⟩
  | cons e rest ih =>
      intro acc hWF
      obtain ⟨d0, tx, ty, cp, hd, hex, hcp⟩ := hWF e (List.mem_cons_self e rest)
      obtain ⟨uses1, hok, hF⟩ :=
        ih (acc ++ [(cp, tx, ty)]) (fun f hf => hWF f (List.mem_cons_of_mem e hf))
      refine ⟨(cp, tx, ty) :: uses1, ?_, ?_⟩
      · simp only [processElems, hd, hex, hcp]
        rw [hok, List.append_assoc]
        rfl
      · exact List.Forall₂.cons ⟨d0, hd, hex, hcp⟩ hF

/-- C2: a page all of whose shapes carry digests present in the font
metadata is rewritten into a text run of the same length as the page, with
each shape appended in document order as (codepoint, offsetX, offsetY), and
an empty path dictionary — hence a residual graphic with no path or use
elements. -/
theorem deduplicate_svg_roundtrip (hash : String → String) (font_meta : List (String × Nat))
    (page : List PathElem) (hWF : ∀ e ∈ page, IsPromoted hash font_meta e) :
    ∃ uses, deduplicate_svg hash font_meta page = .ok (uses, [])
      ∧ List.Forall₂ (DescribesUse hash font_meta) page uses
      ∧ uses.length = page.length := by
  obtain ⟨uses, hok, hF⟩ := processElems_all_promoted hash font_meta page [] hWF
  exact ⟨uses, by simpa [deduplicate_svg] using hok, hF, (List.Forall₂.length_eq hF).symm⟩

/-- Witness for C2: a one-shape page whose digest is in the metadata is
rewritten into a one-entry text run and an empty residual dictionary. -/
theorem deduplicate_svg_roundtrip_witness :
    ∃ uses, deduplicate_svg id [("M0 0Z", 65)] [⟨some "M0 0Z", some "translate(1,2)"⟩]
        = .ok (uses, [])
      ∧ List.Forall₂ (DescribesUse id [("M0 0Z", 65)])
          [⟨some "M0 0Z", some "translate(1,2)"⟩] uses
      ∧ uses.length = 1 :=
  deduplicate_svg_roundtrip id [("M0 0Z", 65)] [⟨some "M0 0Z", some "translate(1,2)"⟩]
    (by
      intro e he
      rw [List.mem_singleton] at he
      subst he
      exact ⟨"M0 0Z", 1, 2, 65, rfl, by decide, by decide⟩)

/-- C9, counterexample: in the page rewriter a shape element with no path
data attribute is NOT merely skipped — the whole page raises, and the
following perfectly well-formed shape of the same page is never processed
(processing that shape alone succeeds). -/
theorem rewriter_missing_d_counterexample :
    deduplicate_svg id [("M0 0Z", 65)]
        [⟨none, some "translate(9,9)"⟩, ⟨some "M0 0Z", some "translate(1,2)"⟩] = .exn
    ∧ deduplicate_svg id [("M0 0Z", 65)] [⟨some "M0 0Z", some "translate(1,2)"⟩]
        = .ok ([(65, 1, 2)], []) :=
  ⟨rfl, by decide⟩

/-- C9 as amended: in the page rewriter a shape with missing path data
raises and the entire page is skipped, while the surrounding batch loop
isolates the failure to that one page; shape-level skipping exists in the
representative finder, whose scan drops a payload-free shape and continues
the page. -/
theorem rewriter_missing_d_behaviour :
    (∀ (hash : String → String) (font_meta : List (String × Nat))
        (pre post : List PathElem) (tr : Option String)
        (acc : List (Nat × Int × Int)) (dict : List (String × List (Option (Int × Int)))),
        processElems hash font_meta (pre ++ ⟨none, tr⟩ :: post) acc dict = .exn)
    ∧ (∀ (hash : String → String) (font_meta : List (String × Nat))
        (pages1 pages2 : List (List PathElem)) (pre post : List PathElem) (tr : Option String),
        deduplicate_batch hash font_meta (pages1 ++ (pre ++ ⟨none, tr⟩ :: post) :: pages2)
          = deduplicate_batch hash font_meta pages1
              ++ .exn :: deduplicate_batch hash font_meta pages2)
    ∧ (∀ (hash : String → String) (rest : List (Option String)) (res w : List String),
        pageScan hash (none :: rest) res w = pageScan hash rest res w) := by
  have h1 : ∀ (hash : String → String) (font_meta : List (String × Nat))
      (pre post : List PathElem) (tr : Option String)
      (acc : List (Nat × Int × Int)) (dict : List (String × List (Option (Int × Int)))),
      processElems hash font_meta (pre ++ ⟨none, tr⟩ :: post) acc dict = .exn := by
    intro hash font_meta pre post tr acc dict
    exact processElems_exn_of_bad hash font_meta ⟨none, tr⟩ (Or.inl rfl) pre post acc dict
  refine ⟨h1, ?_, ?_⟩
  · intro hash font_meta pages1 pages2 pre post tr
    simp only [deduplicate_batch, List.map_append, List.map_cons]
    rw [show deduplicate_svg hash font_meta (pre ++ ⟨none, tr⟩ :: post) = .exn from
      h1 hash font_meta pre post tr [] []]
  · intro hash rest res w
    rfl

/-- Helper: a digit character is not a sign or a dot. -/
theorem isDigitC_ne {c : Char} (h : isDigitC c = true) : c ≠ '-' ∧ c ≠ '+' ∧ c ≠ '.' := by
  simp only [isDigitC, Bool.and_eq_true, decide_eq_true_eq] at h
  refine ⟨?_, ?_, ?_⟩ <;> rintro rfl <;> revert h <;> decide

/-- Helper: every character kept by `takeWhile isDigitC` is a digit. -/
theorem takeWhile_digits (l : List Char) : (l.takeWhile isDigitC).all isDigitC = true := by
  rw [List.all_eq_true]
  intro c hc
  exact List.mem_takeWhile_imp hc

/-- Helper: a group returned by `matchNumCore` with a legal sign has the
sign-digits-optional-fraction shape. -/
theorem matchNumCore_shape {sign cs1 g rest : List Char}
    (hsign : sign = ([] : List Char) ∨ sign = ['-'] ∨ sign = ['+'])
    (h : matchNumCore sign cs1 = some (g, rest)) : GroupShape g := by
  unfold matchNumCore at h
  split at h
  · rename_i cs3 heq
    split at h
    · split at h
      · exact absurd h (by simp)
      · rename_i hds1
        have hg : sign ++ cs1.takeWhile isDigitC = g := congrArg Prod.fst (Option.some.inj h)
        exact ⟨sign, cs1.takeWhile isDigitC, [], hsign, takeWhile_digits cs1, rfl,
          Or.inl ⟨hg.symm, hds1⟩⟩
    · rename_i hds2
      have hg : sign ++ cs1.takeWhile isDigitC ++ '.' :: cs3.takeWhile isDigitC = g :=
        congrArg Prod.fst (Option.some.inj h)
      exact ⟨sign, cs1.takeWhile isDigitC, cs3.takeWhile isDigitC, hsign,
        takeWhile_digits cs1, takeWhile_digits cs3, Or.inr ⟨hg.symm, hds2⟩⟩
  · split at h
    · exact absurd h (by simp)
    · rename_i hds1
      have hg : sign ++ cs1.takeWhile isDigitC = g := congrArg Prod.fst (Option.some.inj h)
      exact ⟨sign, cs1.takeWhile isDigitC, [], hsign, takeWhile_digits cs1, rfl,
        Or.inl ⟨hg.symm, hds1⟩⟩

/-- Helper: a group returned by `matchNumArg` has the legal shape. -/
theorem matchNumArg_shape {cs g rest : List Char}
    (h : matchNumArg cs = some (g, rest)) : GroupShape g := by
  cases cs with
  | nil => exact absurd h (by simp [matchNumArg])
  | cons c cs0 =>
      simp only [matchNumArg] at h
      by_cases hm : c = '-'
      · rw [if_pos hm] at h
        exact matchNumCore_shape (Or.inr (Or.inl rfl)) h
      · rw [if_neg hm] at h
        by_cases hp : c = '+'
        · rw [if_pos hp] at h
          exact matchNumCore_shape (Or.inr (Or.inr rfl)) h
        · rw [if_neg hp] at h
          exact matchNumCore_shape (Or.inl rfl) h

/-- Helper: both groups matched after the literal prefix have the legal
shape. -/
theorem matchAfterParen_shape {cs1 g1 g2 : List Char}
    (h : matchAfterParen cs1 = some (g1, g2)) : GroupShape g1 ∧ GroupShape g2 := by
  unfold matchAfterParen at h
  split at h
  · exact absurd h (by simp)
  · rename_i ga cs2 hm1
    split at h
    · rename_i cs3
      split at h
      · exact absurd h (by simp)
      · rename_i gb cs4 hm2
        split at h
        · have hp := Option.some.inj h
          have ha : ga = g1 := congrArg Prod.fst hp
          have hb : gb = g2 := congrArg Prod.snd hp
          subst ha; subst hb
          exact ⟨matchNumArg_shape hm1, matchNumArg_shape hm2⟩
        · exact absurd h (by simp)
    · exact absurd h (by simp)

/-- Helper: both groups of a successful anchored translate match have the
legal shape. -/
theorem matchTranslateAt_shape {cs g1 g2 : List Char}
    (h : matchTranslateAt cs = some (g1, g2)) : GroupShape g1 ∧ GroupShape g2 := by
  unfold matchTranslateAt at h
  split at h
  · exact matchAfterParen_shape h
  · exact absurd h (by simp)

/-- Helper: both groups of a successful search have the legal shape. -/
theorem searchTranslate_shape :
    ∀ {cs g1 g2 : List Char}, searchTranslate cs = some (g1, g2) →
      GroupShape g1 ∧ GroupShape g2 := by
  intro cs
  induction cs with
  | nil => intro g1 g2 h; exact absurd h (by simp [searchTranslate])
  | cons c rest ih =>
      intro g1 g2 h
      simp only [searchTranslate] at h
      cases hm : matchTranslateAt (c :: rest) with
      | some g =>
          obtain ⟨ga, gb⟩ := g
          simp only [hm] at h
          have ha : ga = g1 := congrArg Prod.fst (Option.some.inj h)
          have hb : gb = g2 := congrArg Prod.snd (Option.some.inj h)
          subst ha; subst hb
          exact matchTranslateAt_shape hm
      | none =>
          simp only [hm] at h
          exact ih h

/-- Helper: `int` raises on any string containing a decimal point. -/
theorem pyInt_none_of_dot {g : List Char} (hdot : '.' ∈ g) : pyInt g = none := by
  have hval : ∀ cs : List Char, '.' ∈ cs → digitsValue cs = none := by
    intro cs hc
    have hno : ¬(cs ≠ [] ∧ cs.all isDigitC = true) := by
      rintro ⟨-, hall⟩
      have := List.all_eq_true.mp hall '.' hc
      simp [isDigitC] at this
    simp only [digitsValue]
    rw [if_neg hno]
  cases g with
  | nil => cases hdot
  | cons c rest =>
      by_cases hm : c = '-'
      · subst hm
        have hr : '.' ∈ rest := by simpa using hdot
        simp [pyInt, hval rest hr]
      · by_cases hp : c = '+'
        · subst hp
          have hr : '.' ∈ rest := by simpa using hdot
          simp [pyInt, hval rest hr]
        · simp [pyInt, hm, hp, hval (c :: rest) hdot]

/-- Helper: `int` succeeds on a dot-free group of the legal shape. -/
theorem pyInt_some_of_shape {g : List Char} (hs : GroupShape g) (hdot : '.' ∉ g) :
    ∃ n, pyInt g = some n := by
  obtain ⟨sign, ds1, ds2, hsign, h1, h2, halt⟩ := hs
  rcases halt with ⟨hg, hne⟩ | ⟨hg, -⟩
  · subst hg
    have hdv : digitsValue ds1 = some (natOfDigits ds1) := by
      simp only [digitsValue]
      rw [if_pos ⟨hne, h1⟩]
    rcases hsign with h | h | h <;> subst h
    · simp only [List.nil_append] at hdot ⊢
      cases ds1 with
      | nil => exact absurd rfl hne
      | cons c cs =>
          have hcdig : isDigitC c = true :=
            List.all_eq_true.mp h1 c (List.mem_cons_self c cs)
          obtain ⟨hc1, hc2, -⟩ := isDigitC_ne hcdig
          refine ⟨(natOfDigits (c :: cs) : Int), ?_⟩
          simp [pyInt, hc1, hc2, hdv]
    · refine ⟨-(natOfDigits ds1 : Int), ?_⟩
      simp [pyInt, hdv]
    · refine ⟨(natOfDigits ds1 : Int), ?_⟩
      simp [pyInt, hdv]
  · exfalso
    apply hdot
    rw [hg]
    simp

/-- C10: `extract_translate_coordinates` yields a pair only for plain
integer translate arguments: with no match it returns `None`; a matched
argument containing a decimal point makes `int` raise, so the call raises;
dot-free matched arguments yield an integer pair; and inside the page
rewriter an extraction failure aborts the entire page rather than just the
one shape. -/
theorem extract_translate_int_only :
    (∀ s : String, searchTranslate s.data = none →
        extract_translate_coordinates (some s) = .ok none)
    ∧ (∀ (s : String) (g1 g2 : List Char), searchTranslate s.data = some (g1, g2) →
        ('.' ∈ g1 ∨ '.' ∈ g2) → extract_translate_coordinates (some s) = .exn)
    ∧ (∀ (s : String) (g1 g2 : List Char), searchTranslate s.data = some (g1, g2) →
        '.' ∉ g1 → '.' ∉ g2 →
        ∃ x y, extract_translate_coordinates (some s) = .ok (some (x, y)))
    ∧ (∀ (hash : String → String) (font_meta : List (String × Nat))
        (pre post : List PathElem) (e : PathElem),
        extract_translate_coordinates e.transform = .exn →
        ∀ (acc : List (Nat × Int × Int)) (dict : List (String × List (Option (Int × Int)))),
        processElems hash font_meta (pre ++ e :: post) acc dict = .exn) := by
  refine ⟨?_, ?_, ?_, ?_⟩
  · intro s hs
    simp only [extract_translate_coordinates, hs]
  · intro s g1 g2 hs hdot
    simp only [extract_translate_coordinates, hs]
    rcases hdot with hd | hd
    · rw [pyInt_none_of_dot hd]
    · cases hp1 : pyInt g1 with
      | none => rfl
      | some x => rw [pyInt_none_of_dot hd]
  · intro s g1 g2 hs hd1 hd2
    obtain ⟨hs1, hs2⟩ := searchTranslate_shape hs
    obtain ⟨x, hx⟩ := pyInt_some_of_shape hs1 hd1
    obtain ⟨y, hy⟩ := pyInt_some_of_shape hs2 hd2
    refine ⟨x, y, ?_⟩
    simp only [extract_translate_coordinates, hs, hx, hy]
  · intro hash font_meta pre post e hex acc dict
    exact processElems_exn_of_bad hash font_meta e (Or.inr hex) pre post acc dict

/-- Witness for C10 at the concrete input of the claim: the transform
`translate(12.5, 3)` matches with first group `12.5`, whose decimal point
makes the extraction raise. -/
theorem extract_translate_int_only_witness :
    extract_translate_coordinates (some "translate(12.5, 3)") = .exn :=
  extract_translate_int_only.2.1 "translate(12.5, 3)" ['1', '2', '.', '5'] ['3']
    (by decide) (Or.inl (by decide))

/-- Helper: a page scan is the straight-line scan of its present, rstripped
path-data strings. -/
theorem pageScan_eq_linScan (hash : String → String) :
    ∀ (p : List (Option String)) (res w : List String),
      pageScan hash p res w = linScan hash (p.filterMap (fun o => o.map rstrip)) res w := by
  intro p
  induction p with
  | nil => intro res w; rfl
  | cons o rest ih =>
      intro res w
      cases o with
      | none => simpa only [pageScan, List.filterMap_cons] using ih res w
      | some d =>
          simp only [pageScan, List.filterMap_cons, Option.map_some', linScan]
          by_cases hm : hash (rstrip d) ∈ w
          · rw [if_pos hm, if_pos hm, ih]
          · rw [if_neg hm, if_neg hm, ih]

/-- Helper: scanning a concatenation scans the first part, then the second
from the state the first part left. -/
theorem linScan_append (hash : String → String) :
    ∀ (ds1 ds2 : List String) (res w : List String),
      linScan hash (ds1 ++ ds2) res w
        = linScan hash ds2 (linScan hash ds1 res w).1 (linScan hash ds1 res w).2 := by
  intro ds1
  induction ds1 with
  | nil => intro ds2 res w; rfl
  | cons d ds ih =>
      intro ds2 res w
      simp only [List.cons_append, linScan, List.append_eq]
      by_cases hm : hash d ∈ w
      · rw [if_pos hm, if_pos hm, ih]
      · rw [if_neg hm, if_neg hm, ih]

/-- Helper: with nothing pending, a scan records nothing. -/
theorem linScan_nil_wanted (hash : String → String) :
    ∀ (ds res : List String), linScan hash ds res [] = (res, []) := by
  intro ds
  induction ds with
  | nil => intro res; rfl
  | cons d rest ih =>
      intro res
      simp only [linScan, List.not_mem_nil, if_false]
      exact ih res

/-- Helper: the early break never changes the outcome — the page loop with
break equals the straight-line scan of all occurrences. -/
theorem findGlyphsCore_eq_linScan (hash : String → String) :
    ∀ (pages : List (List (Option String))) (res w : List String),
      findGlyphsCore hash pages res w = linScan hash (corpusOccs pages) res w := by
  intro pages
  induction pages with
  | nil => intro res w; rfl
  | cons p ps ih =>
      intro res w
      simp only [findGlyphsCore, corpusOccs, List.flatten_cons, List.filterMap_append]
      rw [linScan_append hash]
      rw [show (p.filterMap (fun o => o.map rstrip)) = corpusOccs [p] by
        simp [corpusOccs]]
      rw [show pageScan hash p res w = linScan hash (corpusOccs [p]) res w by
        rw [pageScan_eq_linScan]; simp [corpusOccs]]
      by_cases hw : (linScan hash (corpusOccs [p]) res w).2 = []
      · rw [if_pos hw, hw, linScan_nil_wanted]
        rw [Prod.ext_iff]
        exact ⟨rfl, hw⟩
      · rw [if_neg hw, ih]
        rfl

/-- Helper: the scan result with an accumulator is the accumulator followed
by the scan result from an empty accumulator. -/
theorem linScan_acc (hash : String → String) :
    ∀ (ds res w : List String),
      linScan hash ds res w
        = (res ++ (linScan hash ds [] w).1, (linScan hash ds [] w).2) := by
  intro ds
  induction ds with
  | nil => intro res w; simp [linScan]
  | cons d rest ih =>
      intro res w
      simp only [linScan]
      by_cases hm : hash d ∈ w
      · rw [if_pos hm, if_pos hm, ih (res ++ [d]), ih ([] ++ [d])]
        simp
      · rw [if_neg hm, if_neg hm, ih res, ih []]

/-- Helper: every recorded representative's digest was wanted. -/
theorem linScan_mem_wanted (hash : String → String) :
    ∀ (ds w : List String) (d : String), d ∈ (linScan hash ds [] w).1 → hash d ∈ w := by
  intro ds
  induction ds with
  | nil => intro w d hd; cases hd
  | cons e rest ih =>
      intro w d hd
      simp only [linScan] at hd
      by_cases hm : hash e ∈ w
      · rw [if_pos hm, linScan_acc] at hd
        simp only [List.append_eq, List.nil_append, List.singleton_append,
          List.mem_cons] at hd
        rcases hd with rfl | hd
        · exact hm
        · exact List.mem_of_mem_erase (ih (w.erase (hash e)) d hd)
      · rw [if_neg hm] at hd
        exact ih w d hd

/-- Helper: a digest is resolved at most once — recorded digests are
pairwise distinct when the pending set has no duplicates. -/
theorem linScan_hash_nodup (hash : String → String) :
    ∀ (ds w : List String), w.Nodup → ((linScan hash ds [] w).1.map hash).Nodup := by
  intro ds
  induction ds with
  | nil => intro w _; simp [linScan]
  | cons e rest ih =>
      intro w hN
      simp only [linScan]
      by_cases hm : hash e ∈ w
      · rw [if_pos hm, linScan_acc]
        simp only [List.append_eq, List.nil_append, List.singleton_append,
          List.map_cons, List.nodup_cons]
        refine ⟨fun hmem => ?_, ih (w.erase (hash e)) (hN.erase (hash e))⟩
        obtain ⟨d, hd, hde⟩ := List.mem_map.mp hmem
        have hw' : hash d ∈ w.erase (hash e) := linScan_mem_wanted hash rest _ d hd
        rw [hde] at hw'
        exact absurd rfl ((List.Nodup.mem_erase_iff hN).mp hw').1
      · rw [if_neg hm]
        exact ih w hN

/-- Helper: the first occurrence of any still-wanted digest is recorded as
its representative. -/
theorem linScan_first_occurrence (hash : String → String) :
    ∀ (ds w : List String) (h0 rep : String), h0 ∈ w →
      ds.find? (fun d => hash d == h0) = some rep → rep ∈ (linScan hash ds [] w).1 := by
  intro ds
  induction ds with
  | nil => intro w h0 rep _ hf; simp [List.find?] at hf
  | cons e rest ih =>
      intro w h0 rep hw hf
      simp only [linScan]
      by_cases he : hash e = h0
      · have hbeq : (hash e == h0) = true := by simpa using he
        have hfe : rep = e := by
          simp only [List.find?_cons, hbeq] at hf
          exact (Option.some.inj hf).symm
        subst hfe
        rw [if_pos (by rw [he]; exact hw), linScan_acc]
        simp
      · have hbeq : (hash e == h0) = false := by
          simp only [beq_eq_false_iff_ne, ne_eq]
          exact he
        have hfr : rest.find? (fun d => hash d == h0) = some rep := by
          simpa only [List.find?_cons, hbeq] using hf
        by_cases hm : hash e ∈ w
        · rw [if_pos hm, linScan_acc]
          refine List.mem_append_right _ ?_
          exact ih (w.erase (hash e)) h0 rep
            ((List.mem_erase_of_ne (fun h => he h.symm)).mpr hw) hfr
        · rw [if_neg hm]
          exact ih w h0 rep hw hfr

/-- C6: the representative finder records, for each wanted digest occurring
in the corpus, the shape at that digest's first occurrence in scan order
(pages in filename-lexicographic order, shapes in document order); every
recorded shape's digest was wanted; no digest ever gets a second
representative; and once the pending set is empty the remaining pages do
not affect the result (the scan breaks early); determinism follows from the
definition being a pure function of corpus and wanted set. -/
theorem find_glyphs_first_occurrence (hash : String → String)
    (pages : List (List (Option String))) (wanted : List String) (hN : wanted.Nodup) :
    (∀ d ∈ find_glyphs hash pages wanted, hash d ∈ wanted)
    ∧ ((find_glyphs hash pages wanted).map hash).Nodup
    ∧ (∀ h0 ∈ wanted, ∀ rep, (corpusOccs pages).find? (fun d => hash d == h0) = some rep →
        rep ∈ find_glyphs hash pages wanted)
    ∧ ((findGlyphsCore hash pages [] wanted).2 = [] →
        ∀ ps2, find_glyphs hash (pages ++ ps2) wanted = find_glyphs hash pages wanted) := by
  refine ⟨?_, ?_, ?_, ?_⟩
  · intro d hd
    rw [find_glyphs, findGlyphsCore_eq_linScan] at hd
    exact linScan_mem_wanted hash (corpusOccs pages) wanted d hd
  · rw [find_glyphs, findGlyphsCore_eq_linScan]
    exact linScan_hash_nodup hash (corpusOccs pages) wanted hN
  · intro h0 hw rep hf
    rw [find_glyphs, findGlyphsCore_eq_linScan]
    exact linScan_first_occurrence hash (corpusOccs pages) wanted h0 rep hw hf
  · intro hstop ps2
    rw [find_glyphs, find_glyphs, findGlyphsCore_eq_linScan, findGlyphsCore_eq_linScan]
    rw [findGlyphsCore_eq_linScan] at hstop
    rw [show corpusOccs (pages ++ ps2) = corpusOccs pages ++ corpusOccs ps2 by
      simp [corpusOccs]]
    rw [linScan_append, hstop, linScan_nil_wanted]

/-- Witness for C6: on the corpus [["a","b"],["a"]] with wanted digest `b`,
the finder records exactly the first `b` occurrence. -/
theorem find_glyphs_first_occurrence_witness :
    "b" ∈ find_glyphs id [[some "a", some "b"], [some "a"]] ["b"] :=
  (find_glyphs_first_occurrence id [[some "a", some "b"], [some "a"]] ["b"]
      (by decide)).2.2.1 "b" (by decide) "b" (by decide)

/-- C4: an oversized representative (width or height above 100) is skipped
without aborting the build and without consuming a codepoint — removing it
from the input leaves the whole result unchanged; FontMeta's digests are
exactly the hashes of the accepted glyphs, so the oversized digest is
absent (whatever its frequency, which the builder never sees); and a glyph
with both dimensions at most 100 is not rejected by this check — it gets a
FontMeta entry. -/
theorem oversized_never_in_fontmeta (hash : PathData → String) (C : CatFun) :
    (∀ (pre post : List PathData) (cp : Nat) (d : PathData) (b : Box),
        bboxP d = some b → is_within_range b = false →
        buildFont hash C (pre ++ d :: post) cp = buildFont hash C (pre ++ post) cp)
    ∧ (∀ (gs : List PathData) (cp : Nat),
        (buildFont hash C gs cp).map Prod.fst = (gs.filter acceptedB).map hash)
    ∧ (∀ (gs : List PathData) (cp : Nat) (d : PathData) (b : Box),
        bboxP d = some b → is_within_range b = false →
        (∀ g ∈ gs, acceptedB g = true → hash g ≠ hash d) →
        hash d ∉ (buildFont hash C gs cp).map Prod.fst)
    ∧ (∀ (gs : List PathData) (cp : Nat) (d : PathData) (b : Box), d ∈ gs →
        bboxP d = some b → is_within_range b = true →
        hash d ∈ (buildFont hash C gs cp).map Prod.fst) := by
  have hkeys : ∀ (gs : List PathData) (cp : Nat),
      (buildFont hash C gs cp).map Prod.fst = (gs.filter acceptedB).map hash := by
    intro gs
    induction gs with
    | nil => intro cp; rfl
    | cons g rest ih =>
        intro cp
        cases hb : bboxP g with
        | none =>
            have ha : acceptedB g = false := by simp [acceptedB, hb]
            simp only [buildFont, hb, List.filter_cons, ha, Bool.false_eq_true, if_false]
            exact ih cp
        | some b =>
            by_cases hw : is_within_range b = true
            · have ha : acceptedB g = true := by simp [acceptedB, hb, hw]
              simp only [buildFont, hb, if_pos hw, List.filter_cons, ha, if_true,
                List.map_cons]
              rw [ih]
            · have hwf : is_within_range b = false := Bool.eq_false_iff.mpr hw
              have ha : acceptedB g = false := by simp [acceptedB, hb, hwf]
              simp only [buildFont, hb, hwf, Bool.false_eq_true, if_false,
                List.filter_cons, ha]
              exact ih cp
  refine ⟨?_, hkeys, ?_, ?_⟩
  · intro pre
    induction pre with
    | nil =>
        intro post cp d b hb hw
        have hwn : ¬is_within_range b = true := by
          rw [hw]
          exact Bool.false_ne_true
        simp only [List.nil_append, buildFont, hb, if_neg hwn]
    | cons g pre ih =>
        intro post cp d b hb hw
        cases hbg : bboxP g with
        | none =>
            simp only [List.cons_append, buildFont, hbg]
            exact ih post cp d b hb hw
        | some bg =>
            by_cases hwg : is_within_range bg = true
            · simp only [List.cons_append, buildFont, hbg, if_pos hwg]
              exact congrArg (List.cons _) (ih post _ d b hb hw)
            · simp only [List.cons_append, buildFont, hbg, if_neg hwg]
              exact ih post cp d b hb hw
  · intro gs cp d b hb hw hno
    rw [hkeys gs cp]
    intro hmem
    obtain ⟨g, hg, hgd⟩ := List.mem_map.mp hmem
    obtain ⟨hg1, hg2⟩ := List.mem_filter.mp hg
    exact hno g hg1 hg2 hgd
  · intro gs cp d b hd hb hw
    rw [hkeys gs cp]
    refine List.mem_map.mpr ⟨d, ?_, rfl⟩
    refine List.mem_filter.mpr ⟨hd, ?_⟩
    simp [acceptedB, hb, hw]

/-- Witness for C4 at the spec's concrete case: a single representative
with bounding box 200 × 50 produces a FontMeta in which its digest does
not occur. -/
theorem oversized_never_in_fontmeta_witness :
    "h" ∉ (buildFont (fun _ => "h") allLetters
        [[PathCmd.move (0, 0), PathCmd.line (200, 50)]] 33).map Prod.fst :=
  (oversized_never_in_fontmeta (fun _ => "h") allLetters).2.2.1
    [[PathCmd.move (0, 0), PathCmd.line (200, 50)]] 33
    [PathCmd.move (0, 0), PathCmd.line (200, 50)] ⟨0, 0, 200, 50⟩
    (by decide) (by decide) (by decide)

/-- Helper: the advancing loop finds the least printable position, given
that one exists within its fuel. -/
theorem searchPrintable_spec (cat : Nat → Char) :
    ∀ (fuel m : Nat), (∃ k, m ≤ k ∧ k < m + fuel ∧ is_printable cat k = true) →
      is_printable cat (searchPrintable cat fuel m) = true
      ∧ m ≤ searchPrintable cat fuel m
      ∧ ∀ j, m ≤ j → j < searchPrintable cat fuel m → is_printable cat j = false := by
  intro fuel
  induction fuel with
  | zero =>
      rintro m ⟨k, hk1, hk2, -⟩
      omega
  | succ fuel ih =>
      rintro m ⟨k, hk1, hk2, hk3⟩
      by_cases hp : is_printable cat m = true
      · simp only [searchPrintable, if_pos hp]
        exact ⟨hp, Nat.le_refl m, fun j hj1 hj2 =>
          absurd (Nat.lt_of_le_of_lt hj1 hj2) (Nat.lt_irrefl m)⟩
      · have hkm : m + 1 ≤ k := by
          rcases Nat.eq_or_lt_of_le hk1 with h | h
          · exact absurd (h ▸ hk3) hp
          · exact h
        obtain ⟨h1, h2, h3⟩ := ih (m + 1) ⟨k, hkm, by omega, hk3⟩
        simp only [searchPrintable, if_neg hp]
        refine ⟨h1, by omega, ?_⟩
        intro j hj1 hj2
        rcases Nat.eq_or_lt_of_le hj1 with h | h
        · rw [← h]
          exact Bool.eq_false_iff.mpr hp
        · exact h3 j h hj2

/-- Helper: the advanced codepoint is strictly above, printable, and skips
exactly the non-printable positions. -/
theorem nextPrintable_spec (C : CatFun) (n : Nat) :
    n < nextPrintable C n ∧ is_printable C.cat (nextPrintable C n) = true
    ∧ ∀ j, n < j → j < nextPrintable C n → is_printable C.cat j = false := by
  obtain ⟨m, hm1, hm2, hm3⟩ := C.bound_printable n
  obtain ⟨h1, h2, h3⟩ := searchPrintable_spec C.cat (C.bound n - n) (n + 1)
    ⟨m, by omega, by omega, hm3⟩
  unfold nextPrintable
  exact ⟨by omega, h1, fun j hj1 hj2 => h3 j (by omega) hj2⟩

/-- Helper: every codepoint that `buildFont` assigns starting from `cp` is
at least `cp`, the assigned sequence is strictly increasing, and its head
(when any glyph is accepted) is `cp` itself. -/
theorem buildFont_codepoints (hash : PathData → String) (C : CatFun) :
    ∀ (gs : List PathData) (cp : Nat),
      (∀ x ∈ (buildFont hash C gs cp).map (fun kv => kv.2.code_point), cp ≤ x)
      ∧ List.Chain' (· < ·) ((buildFont hash C gs cp).map (fun kv => kv.2.code_point))
      ∧ ((buildFont hash C gs cp).map (fun kv => kv.2.code_point) ≠ [] →
          ((buildFont hash C gs cp).map (fun kv => kv.2.code_point)).head? = some cp) := by
  intro gs
  induction gs with
  | nil => intro cp; exact ⟨fun x hx => absurd hx (List.not_mem_nil x), List.chain'_nil,
      fun h => absurd rfl h⟩
  | cons g rest ih =>
      intro cp
      cases hb : bboxP g with
      | none =>
          simp only [buildFont, hb]
          exact ih cp
      | some b =>
          by_cases hw : is_within_range b = true
          · simp only [buildFont, hb, if_pos hw, List.map_cons]
            obtain ⟨ihle, ihch, ihhd⟩ := ih (nextPrintable C cp)
            have hlt := (nextPrintable_spec C cp).1
            refine ⟨?_, ?_, fun _ => rfl⟩
            · intro x hx
              rcases List.mem_cons.mp hx with hx0 | hx
              · rw [hx0]
              · exact Nat.le_trans (Nat.le_of_lt hlt) (ihle x hx)
            · rw [List.chain'_cons']
              refine ⟨?_, ihch⟩
              intro y hy
              exact Nat.lt_of_lt_of_le hlt (ihle y (List.mem_of_mem_head? hy))
          · simp only [buildFont, hb, if_neg hw]
            exact ih cp

/-- Helper: every assigned codepoint is either the starting one or the
output of the printable-advancing loop, hence printable. -/
theorem buildFont_printable (hash : PathData → String) (C : CatFun) :
    ∀ (gs : List PathData) (cp : Nat),
      ∀ x ∈ (buildFont hash C gs cp).map (fun kv => kv.2.code_point),
        x = cp ∨ is_printable C.cat x = true := by
  intro gs
  induction gs with
  | nil => intro cp x hx; exact absurd hx (List.not_mem_nil x)
  | cons g rest ih =>
      intro cp x hx
      cases hb : bboxP g with
      | none =>
          simp only [buildFont, hb] at hx
          exact ih cp x hx
      | some b =>
          by_cases hw : is_within_range b = true
          · simp only [buildFont, hb, if_pos hw, List.map_cons] at hx
            rcases List.mem_cons.mp hx with rfl | hx
            · exact Or.inl rfl
            · rcases ih (nextPrintable C cp) x hx with rfl | hp
              · exact Or.inr (nextPrintable_spec C cp).2.1
              · exact Or.inr hp
          · simp only [buildFont, hb, if_neg hw] at hx
            exact ih cp x hx

/-- C7: codepoint assignment starts at 33 (one above the ASCII space),
assigned codepoints are strictly increasing and pairwise distinct, every
assigned codepoint has general category L, N, P or S (given that 33 does,
as it does in Unicode where `!` is Po), and the advancing loop skips
exactly the codepoints of other categories. -/
theorem codepoint_assignment (hash : PathData → String) (C : CatFun)
    (glyphs : List PathData) (h33 : is_printable C.cat 33 = true) :
    ((create_font_from_memory_svgs hash C glyphs).map (fun kv => kv.2.code_point) ≠ [] →
      ((create_font_from_memory_svgs hash C glyphs).map
        (fun kv => kv.2.code_point)).head? = some 33)
    ∧ List.Chain' (· < ·)
        ((create_font_from_memory_svgs hash C glyphs).map (fun kv => kv.2.code_point))
    ∧ ((create_font_from_memory_svgs hash C glyphs).map (fun kv => kv.2.code_point)).Nodup
    ∧ (∀ x ∈ (create_font_from_memory_svgs hash C glyphs).map (fun kv => kv.2.code_point),
        is_printable C.cat x = true)
    ∧ (∀ n : Nat, n < nextPrintable C n
        ∧ is_printable C.cat (nextPrintable C n) = true
        ∧ ∀ j, n < j → j < nextPrintable C n → is_printable C.cat j = false) := by
  obtain ⟨hle, hch, hhd⟩ := buildFont_codepoints hash C glyphs 33
  refine ⟨hhd, hch, ?_, ?_, nextPrintable_spec C⟩
  · have hpw : List.Pairwise (· < ·)
        ((create_font_from_memory_svgs hash C glyphs).map (fun kv => kv.2.code_point)) :=
      List.chain'_iff_pairwise.mp hch
    exact List.Pairwise.imp Nat.ne_of_lt hpw
  · intro x hx
    rcases buildFont_printable hash C glyphs 33 x hx with rfl | hp
    · exact h33
    · exact hp

/-- Witness for C7: with the all-Letters category function, building a font
from one unit-box glyph assigns codepoint 33 to its first glyph. -/
theorem codepoint_assignment_witness :
    ((create_font_from_memory_svgs (fun _ => "h") allLetters
        [[PathCmd.move (0, 0), PathCmd.line (1, 1)]]).map
      (fun kv => kv.2.code_point)).head? = some 33 :=
  (codepoint_assignment (fun _ => "h") allLetters
    [[PathCmd.move (0, 0), PathCmd.line (1, 1)]] (by decide)).1 (by decide)

/-- C3, code bug: `make_svg` does anchor the `viewBox` at the shape's own
bounding-box minimum corner, so the path re-expressed relative to that
corner is identical for two shapes that differ only by a translation — but
the third and fourth `viewBox` entries are written as `xmin + 100` and
`ymin + 100`, which per the SVG specification are the cell's WIDTH and
HEIGHT; the emitted glyph cells therefore depend on the shape's absolute
position (here 100 × 100 versus 150 × 100) and are not identical. -/
theorem glyph_cell_not_position_independent :
    bboxP [PathCmd.move (0, 0), PathCmd.line (10, 10)] = some ⟨0, 0, 10, 10⟩
    ∧ bboxP [PathCmd.move (50, 0), PathCmd.line (60, 10)] = some ⟨50, 0, 60, 10⟩
    ∧ [PathCmd.move (50, 0), PathCmd.line (60, 10)]
        = translatePath (50, 0) [PathCmd.move (0, 0), PathCmd.line (10, 10)]
    ∧ (glyphCell (make_svg [PathCmd.move (0, 0), PathCmd.line (10, 10)] ⟨0, 0, 10, 10⟩)).2.2
        = (glyphCell (make_svg [PathCmd.move (50, 0), PathCmd.line (60, 10)]
            ⟨50, 0, 60, 10⟩)).2.2
    ∧ (make_svg [PathCmd.move (0, 0), PathCmd.line (10, 10)] ⟨0, 0, 10, 10⟩).vb3 = 100
    ∧ (make_svg [PathCmd.move (50, 0), PathCmd.line (60, 10)] ⟨50, 0, 60, 10⟩).vb3 = 150
    ∧ glyphCell (make_svg [PathCmd.move (0, 0), PathCmd.line (10, 10)] ⟨0, 0, 10, 10⟩)
        ≠ glyphCell (make_svg [PathCmd.move (50, 0), PathCmd.line (60, 10)]
            ⟨50, 0, 60, 10⟩) := by
  refine ⟨by decide, by decide, by decide, by decide, rfl, rfl, by decide⟩

/-- Helper: `digitChar` and `digitVal` are inverse below 10. -/
theorem digitVal_digitChar : ∀ k, k < 10 → digitVal (digitChar k) = k := by decide

/-- Helper: `digitChar` yields digits below 10. -/
theorem isDigitC_digitChar : ∀ k, k < 10 → isDigitC (digitChar k) = true := by decide

/-- Helper: `digitChar` yields the zero character only at zero. -/
theorem digitChar_eq_zero_iff : ∀ k, k < 10 → (digitChar k = '0' ↔ k = 0) := by decide

/-- Helper: no digit below 10 formats as a decimal point. -/
theorem digitChar_ne_dot : ∀ k, k < 10 → digitChar k ≠ '.' := by decide

/-- Helper: the value of concatenated digit lists. -/
theorem natOfDigits_append (a b : List Char) :
    natOfDigits (a ++ b) = natOfDigits a * 10 ^ b.length + natOfDigits b := by
  have key : ∀ (l : List Char) (init : Nat),
      l.foldl (fun x c => 10 * x + digitVal c) init
        = init * 10 ^ l.length + l.foldl (fun x c => 10 * x + digitVal c) 0 := by
    intro l
    induction l with
    | nil => intro init; simp
    | cons c cs ih =>
        intro init
        simp only [List.foldl_cons, List.length_cons]
        rw [ih (10 * init + digitVal c), ih (10 * 0 + digitVal c)]
        ring
  unfold natOfDigits
  rw [List.foldl_append, key b]

/-- Helper: the decimal rendering of `n` is a nonempty digit string whose
value is `n`. -/
theorem natToDigitsAux_spec : ∀ (fuel n : Nat), n < fuel →
    natOfDigits (natToDigitsAux fuel n) = n
    ∧ natToDigitsAux fuel n ≠ []
    ∧ (natToDigitsAux fuel n).all isDigitC = true := by
  intro fuel
  induction fuel with
  | zero => intro n h; omega
  | succ fuel ih =>
      intro n h
      by_cases hn : n < 10
      · simp only [natToDigitsAux, if_pos hn]
        refine ⟨?_, by simp, ?_⟩
        · simp [natOfDigits, digitVal_digitChar n hn]
        · simp [isDigitC_digitChar n hn]
      · have h10 : 10 ≤ n := Nat.le_of_not_lt hn
        have hdiv : n / 10 < fuel := by
          have := Nat.div_lt_self (show 0 < n by omega) (show 1 < 10 by omega)
          omega
        obtain ⟨ih1, ih2, ih3⟩ := ih (n / 10) hdiv
        simp only [natToDigitsAux, if_neg hn]
        refine ⟨?_, by simp, ?_⟩
        · rw [natOfDigits_append, ih1]
          have hsing : natOfDigits [digitChar (n % 10)] = n % 10 := by
            simp [natOfDigits, digitVal_digitChar (n % 10) (Nat.mod_lt n (by omega))]
          rw [hsing, List.length_singleton, pow_one]
          omega
        · rw [List.all_append, ih3]
          simp [isDigitC_digitChar (n % 10) (Nat.mod_lt n (by omega))]

/-- Helper: `natToDigits` round trip. -/
theorem natToDigits_spec (n : Nat) :
    natOfDigits (natToDigits n) = n ∧ natToDigits n ≠ []
    ∧ (natToDigits n).all isDigitC = true :=
  natToDigitsAux_spec (n + 1) n (Nat.lt_succ_self n)

/-- Helper: `takeWhile`/`dropWhile` on an all-digit prefix followed by a
decimal point. -/
theorem digits_then_dot (ds rest : List Char) (hds : ds.all isDigitC = true) :
    (ds ++ '.' :: rest).takeWhile isDigitC = ds
    ∧ (ds ++ '.' :: rest).dropWhile isDigitC = '.' :: rest := by
  induction ds with
  | nil =>
      constructor <;> simp [List.takeWhile_cons, List.dropWhile_cons, isDigitC]
  | cons c cs ih =>
      have hc : isDigitC c = true := List.all_eq_true.mp hds c (List.mem_cons_self c cs)
      have hcs : cs.all isDigitC = true := by
        rw [List.all_eq_true]
        intro x hx
        exact List.all_eq_true.mp hds x (List.mem_cons_of_mem c hx)
      obtain ⟨iht, ihd⟩ := ih hcs
      constructor
      · simp [List.takeWhile_cons, hc, iht]
      · simp [List.dropWhile_cons, hc, ihd]

/-- Helper: `takeWhile`/`dropWhile` on an all-digit list. -/
theorem all_digits_split (ds : List Char) (hds : ds.all isDigitC = true) :
    ds.takeWhile isDigitC = ds ∧ ds.dropWhile isDigitC = [] := by
  induction ds with
  | nil => exact ⟨rfl, rfl⟩
  | cons c cs ih =>
      have hc : isDigitC c = true := List.all_eq_true.mp hds c (List.mem_cons_self c cs)
      have hcs : cs.all isDigitC = true := by
        rw [List.all_eq_true]
        intro x hx
        exact List.all_eq_true.mp hds x (List.mem_cons_of_mem c hx)
      obtain ⟨iht, ihd⟩ := ih hcs
      constructor
      · simp [List.takeWhile_cons, hc, iht]
      · simp [List.dropWhile_cons, hc, ihd]

/-- Helper: parsing an all-digit literal body. -/
theorem parseDigitsDot_int (ds : List Char) (hne : ds ≠ []) (hall : ds.all isDigitC = true) :
    parseDigitsDot ds = some (ds, []) := by
  obtain ⟨ht, hd⟩ := all_digits_split ds hall
  simp only [parseDigitsDot, hd, ht]
  rw [if_neg hne]

/-- Helper: parsing a digits-dot-digits literal body. -/
theorem parseDigitsDot_frac (ds frac : List Char) (hds : ds.all isDigitC = true)
    (hfe : frac ≠ []) (hfall : frac.all isDigitC = true) :
    parseDigitsDot (ds ++ '.' :: frac) = some (ds, frac) := by
  obtain ⟨ht, hd⟩ := digits_then_dot ds frac hds
  simp only [parseDigitsDot, hd, ht]
  rw [if_pos ⟨hfe, hfall⟩]

/-- Helper: `parseLit` on an optionally negated body whose head is a
digit. -/
theorem parseLit_signed (neg : Bool) (hd : Char) (tl : List Char)
    (hdig : isDigitC hd = true) (p : List Char × List Char)
    (hp : parseDigitsDot (hd :: tl) = some p) :
    parseLit (if neg then '-' :: (hd :: tl) else hd :: tl) = some (neg, p.1, p.2) := by
  obtain ⟨h1, h2, -⟩ := isDigitC_ne hdig
  cases neg
  · simp only [Bool.false_eq_true, if_false, parseLit, if_neg h1, if_neg h2, hp]
  · simp only [if_true, parseLit, if_pos rfl, hp]

/-- Helper: stripping a character that is not the last one is a no-op. -/
theorem rstripChar_last_ne (c d : Char) (ys : List Char) (hne : d ≠ c) :
    rstripChar c (ys ++ [d]) = ys ++ [d] := by
  unfold rstripChar
  have h1 : (ys ++ [d]).reverse = d :: ys.reverse := by simp
  rw [h1, List.dropWhile_cons]
  have h2 : (d == c) = false := by simpa using hne
  rw [h2]
  simp

/-- Helper: stripping removes the last character when it matches. -/
theorem rstripChar_last_eq (c : Char) (ys : List Char) :
    rstripChar c (ys ++ [c]) = rstripChar c ys := by
  unfold rstripChar
  have h1 : (ys ++ [c]).reverse = c :: ys.reverse := by simp
  rw [h1, List.dropWhile_cons]
  simp

/-- Helper: the stripped two-decimal rendering of `s / 100` in its three
shapes: integral, one significant decimal, two significant decimals. -/
theorem formatStripped_cases (neg : Bool) (s : Nat) :
    (s % 100 = 0 → formatStripped neg s
        = (if neg then '-' :: natToDigits (s / 100) else natToDigits (s / 100)))
    ∧ (s % 100 ≠ 0 → s % 10 = 0 → formatStripped neg s
        = (if neg then '-' :: (natToDigits (s / 100) ++ ['.', digitChar (s / 10 % 10)])
           else natToDigits (s / 100) ++ ['.', digitChar (s / 10 % 10)]))
    ∧ (s % 10 ≠ 0 → formatStripped neg s
        = (if neg then
            '-' :: (natToDigits (s / 100) ++ ['.', digitChar (s / 10 % 10), digitChar (s % 10)])
           else natToDigits (s / 100) ++ ['.', digitChar (s / 10 % 10), digitChar (s % 10)])) := by
  obtain ⟨-, hDne, hDall⟩ := natToDigits_spec (s / 100)
  have hsplit2 : ∀ (D : List Char) (a b x : Char),
      D ++ a :: [b, x] = (D ++ [a, b]) ++ [x] := by
    intro D a b x
    simp
  have hsplit1 : ∀ (D : List Char) (a b : Char), D ++ [a, b] = (D ++ [a]) ++ [b] := by
    intro D a b
    simp
  refine ⟨?_, ?_, ?_⟩
  · intro h100
    have h10 : s % 10 = 0 := by omega
    have hq : s / 10 % 10 = 0 := by omega
    have hc1 : digitChar (s / 10 % 10) = '0' := by rw [hq]; rfl
    have hc0 : digitChar (s % 10) = '0' := by rw [h10]; rfl
    simp only [formatStripped]
    rw [hc1, hc0, hsplit2, rstripChar_last_eq, hsplit1, rstripChar_last_eq]
    rw [rstripChar_last_ne '0' '.' (natToDigits (s / 100)) (by decide)]
    rw [rstripChar_last_eq '.' (natToDigits (s / 100))]
    obtain hD | ⟨ys, d, hysd⟩ := List.eq_nil_or_concat (natToDigits (s / 100))
    · exact absurd hD hDne
    · rw [List.concat_eq_append] at hysd
      have hdd : isDigitC d = true := by
        refine List.all_eq_true.mp hDall d ?_
        rw [hysd]
        exact List.mem_append_right ys (List.mem_singleton_self d)
      obtain ⟨-, -, hdot⟩ := isDigitC_ne hdd
      rw [hysd, rstripChar_last_ne '.' d ys hdot, ← hysd]
  · intro h100 h10
    have hq : s / 10 % 10 ≠ 0 := by omega
    have hqlt : s / 10 % 10 < 10 := Nat.mod_lt _ (by omega)
    have hc0 : digitChar (s % 10) = '0' := by rw [h10]; rfl
    have hc1 : digitChar (s / 10 % 10) ≠ '0' := by
      intro hcontra
      exact hq ((digitChar_eq_zero_iff _ hqlt).mp hcontra)
    simp only [formatStripped]
    rw [hc0, hsplit2, rstripChar_last_eq, hsplit1]
    rw [rstripChar_last_ne '0' (digitChar (s / 10 % 10)) _ hc1]
    rw [rstripChar_last_ne '.' (digitChar (s / 10 % 10)) _ (digitChar_ne_dot _ hqlt),
      ← hsplit1]
  · intro h10
    have hlt : s % 10 < 10 := Nat.mod_lt _ (by omega)
    have hc0 : digitChar (s % 10) ≠ '0' := by
      intro hcontra
      exact h10 ((digitChar_eq_zero_iff _ hlt).mp hcontra)
    simp only [formatStripped]
    rw [hsplit2, rstripChar_last_ne '0' (digitChar (s % 10)) _ hc0]
    rw [rstripChar_last_ne '.' (digitChar (s % 10)) _ (digitChar_ne_dot _ hlt), ← hsplit2]

/-- Helper: re-parsing the stripped rendering recovers the same hundredths
magnitude (the second rounding pass is exact: at most two decimals are
left). -/
theorem scaled2_reparse (s : Nat) :
    (s % 100 = 0 → scaled2 (natToDigits (s / 100)) [] = s)
    ∧ (s % 10 = 0 → scaled2 (natToDigits (s / 100)) [digitChar (s / 10 % 10)] = s)
    ∧ scaled2 (natToDigits (s / 100)) [digitChar (s / 10 % 10), digitChar (s % 10)] = s := by
  obtain ⟨hDval, -, -⟩ := natToDigits_spec (s / 100)
  have hq1 : s / 10 % 10 < 10 := Nat.mod_lt _ (by omega)
  have hq0 : s % 10 < 10 := Nat.mod_lt _ (by omega)
  refine ⟨?_, ?_, ?_⟩
  · intro h100
    simp only [scaled2, List.length_nil, Nat.le_refl, if_pos (by omega : (0 : Nat) ≤ 2),
      List.append_nil, hDval]
    omega
  · intro h10
    have hval : natOfDigits (natToDigits (s / 100) ++ [digitChar (s / 10 % 10)])
        = s / 100 * 10 + s / 10 % 10 := by
      rw [natOfDigits_append, hDval]
      simp [natOfDigits, digitVal_digitChar _ hq1]
    simp only [scaled2, List.length_singleton, if_pos (by omega : (1 : Nat) ≤ 2), hval]
    omega
  · have hval : natOfDigits
        (natToDigits (s / 100) ++ [digitChar (s / 10 % 10), digitChar (s % 10)])
        = s / 100 * 100 + (s / 10 % 10 * 10 + s % 10) := by
      rw [natOfDigits_append, hDval]
      simp [natOfDigits, digitVal_digitChar _ hq1, digitVal_digitChar _ hq0]
      ring
    have hlen : ([digitChar (s / 10 % 10), digitChar (s % 10)] : List Char).length = 2 := rfl
    simp only [scaled2, hlen, hval]
    rw [if_pos (by omega : (2 : Nat) ≤ 2), show (2 : Nat) - 2 = 0 from rfl, pow_zero,
      mul_one]
    omega

/-- C8 as amended: the rounding-and-stripping replacement applied to a
single number literal is idempotent — re-rounding its own output returns
it unchanged (the output has at most two decimals, so the second pass is
exact).  Whole-string idempotence of `round_svg_numbers` fails (see the
counterexample) because a replacement can shorten the text and splice the
following characters into a new match. -/
theorem canonicalize_literal_idempotent :
    ∀ (s t : List Char), roundLiteral s = some t → roundLiteral t = some t := by
  intro s t h
  obtain ⟨neg, ds1, ds2, hparse, ht⟩ : ∃ neg ds1 ds2,
      parseLit s = some (neg, ds1, ds2) ∧ t = formatStripped neg (scaled2 ds1 ds2) := by
    unfold roundLiteral at h
    split at h
    · cases h
    · rename_i q hq
      exact ⟨q.1, q.2.1, q.2.2, hq, (Option.some.inj h).symm⟩
  subst ht
  obtain ⟨hA, hB, hC⟩ := formatStripped_cases neg (scaled2 ds1 ds2)
  obtain ⟨hrA, hrB, hrC⟩ := scaled2_reparse (scaled2 ds1 ds2)
  obtain ⟨-, hDne, hDall⟩ := natToDigits_spec (scaled2 ds1 ds2 / 100)
  obtain ⟨hd, tl, hD⟩ : ∃ hd tl, natToDigits (scaled2 ds1 ds2 / 100) = hd :: tl := by
    cases hDnil : natToDigits (scaled2 ds1 ds2 / 100) with
    | nil => exact absurd hDnil hDne
    | cons x xs => exact ⟨x, xs, rfl⟩
  have hhd : isDigitC hd = true := by
    refine List.all_eq_true.mp hDall hd ?_
    rw [hD]
    exact List.mem_cons_self hd tl
  have hq1lt : scaled2 ds1 ds2 / 10 % 10 < 10 := Nat.mod_lt _ (by omega)
  have hq0lt : scaled2 ds1 ds2 % 10 < 10 := Nat.mod_lt _ (by omega)
  by_cases h100 : scaled2 ds1 ds2 % 100 = 0
  · rw [hA h100]
    have hpd : parseDigitsDot (hd :: tl) = some (hd :: tl, []) := by
      rw [← hD]
      exact parseDigitsDot_int _ hDne hDall
    have hpl := parseLit_signed neg hd tl hhd (hd :: tl, []) hpd
    rw [hD]
    simp only [roundLiteral, hpl]
    rw [← hD]
    rw [show scaled2 (natToDigits (scaled2 ds1 ds2 / 100)) [] = scaled2 ds1 ds2
      from hrA h100]
    rw [hA h100, hD]
  · by_cases h10 : scaled2 ds1 ds2 % 10 = 0
    · have hfall : ([digitChar (scaled2 ds1 ds2 / 10 % 10)]).all isDigitC = true := by
        simp [isDigitC_digitChar _ hq1lt]
      have hpd : parseDigitsDot
          ((hd :: tl) ++ '.' :: [digitChar (scaled2 ds1 ds2 / 10 % 10)])
          = some (hd :: tl, [digitChar (scaled2 ds1 ds2 / 10 % 10)]) := by
        rw [← hD]
        exact parseDigitsDot_frac _ _ hDall (by simp) hfall
      have hpl := parseLit_signed neg hd (tl ++ '.' :: [digitChar (scaled2 ds1 ds2 / 10 % 10)])
        hhd (hd :: tl, [digitChar (scaled2 ds1 ds2 / 10 % 10)]) hpd
      have hgoal : natToDigits (scaled2 ds1 ds2 / 100)
          ++ ['.', digitChar (scaled2 ds1 ds2 / 10 % 10)]
          = hd :: (tl ++ '.' :: [digitChar (scaled2 ds1 ds2 / 10 % 10)]) := by
        rw [hD]
        rfl
      rw [hB h100 h10, hgoal]
      simp only [roundLiteral, hpl]
      rw [← hD, hrB h10, hB h100 h10, hgoal]
    · have hfall : ([digitChar (scaled2 ds1 ds2 / 10 % 10),
          digitChar (scaled2 ds1 ds2 % 10)]).all isDigitC = true := by
        simp [isDigitC_digitChar _ hq1lt, isDigitC_digitChar _ hq0lt]
      have hpd : parseDigitsDot ((hd :: tl) ++ '.' :: [digitChar (scaled2 ds1 ds2 / 10 % 10),
          digitChar (scaled2 ds1 ds2 % 10)])
          = some (hd :: tl, [digitChar (scaled2 ds1 ds2 / 10 % 10),
            digitChar (scaled2 ds1 ds2 % 10)]) := by
        rw [← hD]
        exact parseDigitsDot_frac _ _ hDall (by simp) hfall
      have hpl := parseLit_signed neg hd (tl ++ '.' :: [digitChar (scaled2 ds1 ds2 / 10 % 10),
          digitChar (scaled2 ds1 ds2 % 10)]) hhd
        (hd :: tl, [digitChar (scaled2 ds1 ds2 / 10 % 10), digitChar (scaled2 ds1 ds2 % 10)])
        hpd
      have hgoal : natToDigits (scaled2 ds1 ds2 / 100)
          ++ ['.', digitChar (scaled2 ds1 ds2 / 10 % 10), digitChar (scaled2 ds1 ds2 % 10)]
          = hd :: (tl ++ '.' :: [digitChar (scaled2 ds1 ds2 / 10 % 10),
            digitChar (scaled2 ds1 ds2 % 10)]) := by
        rw [hD]
        rfl
      rw [hC h10, hgoal]
      simp only [roundLiteral, hpl]
      rw [← hD, hrC, hC h10, hgoal]

/-- Witness for the amended C8: applying the literal rounding to `1.456`
yields `1.46`, and rounding `1.46` again returns it unchanged. -/
theorem canonicalize_literal_idempotent_witness :
    roundLiteral ['1', '.', '4', '6'] = some ['1', '.', '4', '6'] :=
  canonicalize_literal_idempotent ['1', '.', '4', '5', '6'] ['1', '.', '4', '6'] (by decide)

/-- C8, counterexample: `round_svg_numbers` is NOT idempotent for every
input.  On `M1.00.456` the first pass rounds the match `1.00` to `1`,
splicing the untouched tail `.456` into the new literal `1.456`; the
second pass rounds that to `1.46`. -/
theorem canonicalize_not_idempotent :
    round_svg_numbers "M1.00.456" = "M1.456"
    ∧ round_svg_numbers "M1.456" = "M1.46"
    ∧ round_svg_numbers (round_svg_numbers "M1.00.456") ≠ round_svg_numbers "M1.00.456" :=
  ⟨by decide, by decide, by decide⟩

end Abd
